import Mathlib

/-!
Shallow embedding of the ConHub content-acquisition core:
`ai-service/app/services/vector_store_service.py` (vector index) and
`ai-service/app/services/url_indexer.py` (crawler and job orchestrator).

Modelling conventions:
- Python floats are modelled as rationals (`ℚ`).  The square root used by the
  norm / magnitude computations is irrational in general, so it is passed in as
  an abstract function parameter `sqrt : ℚ → ℚ`; none of the verified
  properties depend on its values.
- Python's per-process string `hash` is likewise a parameter `hash : String → Nat`.
- Python `dict` is modelled as an insertion-ordered association list with
  Python's update semantics: assignment to an existing key keeps its position,
  assignment to a fresh key appends.
- `aiohttp` fetching and `BeautifulSoup` parsing are environment capabilities
  (`CrawlEnv`): `fetch url` returns the page body when the GET returned
  status 200 with an HTML content type, `anchors html` returns the `href`
  values of the `<a href=...>` elements of an HTML string, and `urljoin`,
  `scheme`, `netloc` model the corresponding `urllib.parse` operations.
- Wall-clock timestamps and `uuid` identifiers are nondeterministic and are
  omitted from the records (no verified property mentions them).
-/

namespace ConHub

/-! ## Python dict as an insertion-ordered association list -/

/-- Python `d.get(k)` / `d[k]`: value of the first (only) entry with key `k`. -/
def dictGet {α : Type} : List (String × α) → String → Option α
  | [], _ => none
  | p :: rest, k => if p.1 = k then some p.2 else dictGet rest k

/-- Python `d[k] = v`: replace the entry in place when the key exists, else append. -/
def dictSet {α : Type} : List (String × α) → String → α → List (String × α)
  | [], k, v => [(k, v)]
  | p :: rest, k, v => if p.1 = k then (k, v) :: rest else p :: dictSet rest k v

/-- Python `del d[k]`: drop the entry with key `k`. -/
def dictDel {α : Type} : List (String × α) → String → List (String × α)
  | [], _ => []
  | p :: rest, k => if p.1 = k then rest else p :: dictDel rest k

/-- Python `d.keys()` in insertion order. -/
def dictKeys {α : Type} (l : List (String × α)) : List String :=
  l.map Prod.fst

/-- Python `str.lower()`, modelled over the character list (ASCII case
mapping; domains and the texts of interest here are ASCII). -/
def pyLower (s : String) : String := String.mk (s.data.map Char.toLower)

/-- Python `str.endswith(suffix)`, modelled over the character lists. -/
def pyEndsWith (s suffix : String) : Bool := suffix.data.isSuffixOf s.data

/-! ## Vector store (`vector_store_service.py`) -/

/-- The `Document` pydantic model.  `metadata` values are opaque strings here;
`created_at` and `updated_at` (wall-clock values) are omitted. -/
structure Doc where
  id : String
  content : String
  metadata : List (String × String)
  embedding : Option (List ℚ)
deriving Repr, DecidableEq

/-- The `SearchResult` pydantic model.  `document` holds the value of
`self.documents[doc_id]`; the lookup is total under the store invariant. -/
structure SearchResult where
  document : Option Doc
  score : ℚ
  rank : Nat
deriving Repr, DecidableEq

/-- The two in-memory maps owned by `VectorStoreService.__init__`. -/
structure VectorStore where
  documents : List (String × Doc)
  embeddings : List (String × List ℚ)
deriving Repr, DecidableEq

def VectorStore.empty : VectorStore := { documents := [], embeddings := [] }

/-- Embedding of `VectorStoreService._generate_simple_embedding` (lines 95-111): a 384-slot
vector; each of the first 50 lowercased words adds `1/(i+1)` at slot
`hash(word) % 384`; the result is normalised when its norm is positive. -/
def generate_simple_embedding (hash : String → Nat) (sqrt : ℚ → ℚ) (text : String) : List ℚ :=
  let words := ((pyLower text).splitOn " ").filter (fun w => w ≠ "")
  let embedding : List ℚ := List.replicate 384 0
  let embedding := ((words.take 50).enum).foldl
    (fun emb iw =>
      let hash_val := hash iw.2 % 384
      emb.set hash_val (emb.getD hash_val 0 + 1 / ((iw.1 : ℚ) + 1)))
    embedding
  let norm := sqrt ((embedding.map (fun x => x * x)).sum)
  if 0 < norm then embedding.map (fun x => x / norm) else embedding

/-- Embedding of `VectorStoreService._cosine_similarity` (lines 113-122). -/
def cosine_similarity (sqrt : ℚ → ℚ) (vec1 vec2 : List ℚ) : ℚ :=
  let dot_product := ((vec1.zip vec2).map (fun p => p.1 * p.2)).sum
  let magnitude1 := sqrt ((vec1.map (fun a => a * a)).sum)
  let magnitude2 := sqrt ((vec2.map (fun a => a * a)).sum)
  if magnitude1 = 0 ∨ magnitude2 = 0 then 0
  else dot_product / (magnitude1 * magnitude2)

/-- Embedding of `VectorStoreService.add_document` (lines 27-45): embeds the content, then
stores the document and the embedding under `doc_id` in both maps. -/
def add_document (hash : String → Nat) (sqrt : ℚ → ℚ) (s : VectorStore)
    (doc_id content : String) (metadata : List (String × String)) : VectorStore × Doc :=
  let embedding := generate_simple_embedding hash sqrt content
  let document : Doc := { id := doc_id, content := content, metadata := metadata,
                          embedding := some embedding }
  ({ documents := dictSet s.documents doc_id document,
     embeddings := dictSet s.embeddings doc_id embedding }, document)

/-- Embedding of `VectorStoreService.delete_document` (lines 78-85). -/
def delete_document (s : VectorStore) (doc_id : String) : VectorStore × Bool :=
  if (dictGet s.documents doc_id).isSome then
    ({ documents := dictDel s.documents doc_id,
       embeddings := dictDel s.embeddings doc_id }, true)
  else (s, false)

/-- Embedding of `VectorStoreService.get_document` (lines 87-89). -/
def get_document (s : VectorStore) (doc_id : String) : Option Doc :=
  dictGet s.documents doc_id

/-- Stable insertion for a score-descending list: the new entry goes after
every entry whose score is greater than or equal to its own. -/
def insertByScoreDesc (x : String × ℚ) : List (String × ℚ) → List (String × ℚ)
  | [] => [x]
  | y :: ys => if y.2 < x.2 then x :: y :: ys else y :: insertByScoreDesc x ys

/-- Embedding of `similarities.sort(key=lambda x: x[1], reverse=True)` (line 61): Python's
sort is stable and `reverse=True` keeps equal-key entries in list order, so it
is modelled by a stable insertion sort processing entries in list order. -/
def sortByScoreDesc (l : List (String × ℚ)) : List (String × ℚ) :=
  l.foldl (fun acc x => insertByScoreDesc x acc) []

/-- A `(doc_id, score)` list in descending score order. -/
abbrev ScoreSorted (l : List (String × ℚ)) : Prop :=
  l.Pairwise (fun a b => b.2 ≤ a.2)

/-- The `similarities` list of `similarity_search` (lines 55-58): one
`(doc_id, score)` pair per entry of `self.embeddings`, in dict order. -/
def query_similarities (hash : String → Nat) (sqrt : ℚ → ℚ) (s : VectorStore)
    (query : String) : List (String × ℚ) :=
  s.embeddings.map (fun p =>
    (p.1, cosine_similarity sqrt (generate_simple_embedding hash sqrt query) p.2))

/-- Embedding of `VectorStoreService.similarity_search` (lines 47-76). -/
def similarity_search (hash : String → Nat) (sqrt : ℚ → ℚ) (s : VectorStore)
    (query : String) (k : Nat) : List SearchResult :=
  if s.documents = [] then []
  else
    let sorted := sortByScoreDesc (query_similarities hash sqrt s query)
    let top_results := sorted.take k
    top_results.enum.map (fun rp =>
      { document := dictGet s.documents rp.2.1, score := rp.2.2, rank := rp.1 + 1 })

/-- One client-visible operation on the vector store. -/
inductive VSOp where
  | add (doc_id content : String) (metadata : List (String × String))
  | del (doc_id : String)
  | get (doc_id : String)
  | search (query : String) (k : Nat)

/-- State effect of one operation: `get_document` and `similarity_search` only
read the maps. -/
def applyOp (hash : String → Nat) (sqrt : ℚ → ℚ) (s : VectorStore) : VSOp → VectorStore
  | .add doc_id content metadata => (add_document hash sqrt s doc_id content metadata).1
  | .del doc_id => (delete_document s doc_id).1
  | .get _ => s
  | .search _ _ => s

def applyOps (hash : String → Nat) (sqrt : ℚ → ℚ) (s : VectorStore) (ops : List VSOp) : VectorStore :=
  ops.foldl (applyOp hash sqrt) s

/-- The two maps of the store agree: same keys in the same order, no duplicate
keys, and the embedding recorded inside each stored document is the entry of
the embeddings map. -/
def StoreInv (s : VectorStore) : Prop :=
  (dictKeys s.documents).Nodup
  ∧ dictKeys s.documents = dictKeys s.embeddings
  ∧ ∀ doc_id, (dictGet s.documents doc_id).bind Doc.embedding = dictGet s.embeddings doc_id

/-- Every stored document carries an embedding of the fixed dimension 384. -/
def EmbDim (s : VectorStore) : Prop :=
  ∀ p ∈ s.documents, ∃ e, (Prod.snd p).embedding = some e ∧ e.length = 384

/-! ## Crawler (`url_indexer.py`, class `URLIndexer`) -/

/-- External capabilities consumed by the crawler: `fetch url` is the page body
when `session.get(url)` yields status 200 with a `text/html` content type
(`_crawl_single_url`, lines 73-84), else `none`; `anchors html` lists the
`href` values of the `<a href=...>` elements found by BeautifulSoup;
`urljoin`, `scheme` and `netloc` model `urllib.parse`. -/
structure CrawlEnv where
  fetch : String → Option String
  anchors : String → List String
  urljoin : String → String → String
  scheme : String → String
  netloc : String → String

/-- The document dict built by `_crawl_single_url` (lines 95-106), restricted
to the fields the verified properties mention (`id` is a fresh uuid and
`title` / `description` / `content` / `size` / `indexed_at` are pure
functions of `raw_html` or of the wall clock). -/
structure CrawlDoc where
  url : String
  raw_html : String
deriving Repr, DecidableEq

/-- Embedding of `URLIndexer._crawl_single_url` (lines 71-113): `none` on non-200 status,
non-HTML content type, or a network error; otherwise a document for `url`. -/
def crawl_single_url (env : CrawlEnv) (url : String) : Option CrawlDoc :=
  match env.fetch url with
  | none => none
  | some html_content => some { url := url, raw_html := html_content }

/-- A Python `NameError`, carrying the name that is not defined. -/
structure PyNameError where
  name : String
deriving Repr, DecidableEq

/-- Embedding of `URLIndexer._extract_links` (lines 158-172) as written in the source: the
loop body evaluates `urljoin(_url, href)` where `_url` is an undefined name
(the parameter is `base_url`), so the first iteration raises
`NameError: name '_url' is not defined`.  With no `<a href>` element the loop
body never runs and the empty list is returned. -/
def extract_links (env : CrawlEnv) (base_url : String) (html_content : String) :
    Except PyNameError (List String) :=
  match base_url, env.anchors html_content with
  | _, [] => Except.ok []
  | _, _ :: _ => Except.error { name := "_url" }

/-- Modelled from the spec: the link extraction `_extract_links` is intended to
perform (its body with `base_url` in place of the undefined `_url`): resolve
each `href` of an `<a href>` element against the current page URL, keep only
`http` / `https` schemes, deduplicate. -/
def extract_links_spec (env : CrawlEnv) (base_url : String) (html_content : String) :
    List String :=
  (((env.anchors html_content).map (fun href => env.urljoin base_url href)).filter
    (fun u => env.scheme u == "http" || env.scheme u == "https")).dedup

/-- Embedding of `URLIndexer._is_allowed_domain` (lines 174-183). -/
def is_allowed_domain (env : CrawlEnv) (url : String) (allowed_domains : List String) : Bool :=
  let domain := pyLower (env.netloc url)
  allowed_domains.any (fun allowed =>
    domain == pyLower allowed || pyEndsWith domain ("." ++ pyLower allowed))

/-- State of the `index_url` loop (lines 39-41), extended with two ghost
traces: the URLs passed to `_crawl_single_url` and the URLs on which
`_extract_links` was invoked. -/
structure CrawlState where
  urls_to_process : List (String × Nat)
  processed_urls : List String
  indexed_documents : List CrawlDoc
  fetched_trace : List String
  extract_trace : List String
deriving Repr, DecidableEq

/-- The `while urls_to_process` loop of `URLIndexer.index_url` (lines 43-67),
with an explicit fuel bound standing for the finiteness of any actual run.  A
`NameError` escaping `_extract_links` is caught by the `except` at line 65 and
the loop continues (the current document was already appended). -/
def index_url_loop (env : CrawlEnv) (max_depth : Nat) (allowed_domains : List String) :
    Nat → CrawlState → CrawlState
  | 0, s => s
  | fuel + 1, s =>
    match s.urls_to_process with
    | [] => s
    | (current_url, depth) :: rest =>
      if current_url ∈ s.processed_urls ∨ max_depth < depth then
        index_url_loop env max_depth allowed_domains fuel { s with urls_to_process := rest }
      else if allowed_domains ≠ [] ∧ is_allowed_domain env current_url allowed_domains = false then
        index_url_loop env max_depth allowed_domains fuel { s with urls_to_process := rest }
      else
        let s1 := { s with urls_to_process := rest,
                           fetched_trace := s.fetched_trace ++ [current_url] }
        match crawl_single_url env current_url with
        | none => index_url_loop env max_depth allowed_domains fuel s1
        | some document =>
          let s2 := { s1 with indexed_documents := s1.indexed_documents ++ [document],
                              processed_urls := s1.processed_urls ++ [current_url] }
          if depth < max_depth then
            let s3 := { s2 with extract_trace := s2.extract_trace ++ [current_url] }
            match extract_links env current_url document.raw_html with
            | Except.error _ => index_url_loop env max_depth allowed_domains fuel s3
            | Except.ok links =>
              index_url_loop env max_depth allowed_domains fuel
                { s3 with urls_to_process := s3.urls_to_process ++
                    ((links.filter (fun link => link ∉ s3.processed_urls)).map
                      (fun link => (link, depth + 1))) }
          else index_url_loop env max_depth allowed_domains fuel s2

/-- Embedding of `URLIndexer.index_url` (lines 34-69): traversal seeded at `(url, 0)`. -/
def index_url (env : CrawlEnv) (url : String) (max_depth : Nat)
    (allowed_domains : List String) (fuel : Nat) : CrawlState :=
  index_url_loop env max_depth allowed_domains fuel
    { urls_to_process := [(url, 0)], processed_urls := [],
      indexed_documents := [], fetched_trace := [], extract_trace := [] }

/-- Loop invariant behind the dedup claims: queued URLs are pairwise distinct
and unfetched, the fetch trace has no repeats, and the result documents carry
pairwise distinct URLs, all of them recorded in `processed_urls`. -/
def CrawlInv (s : CrawlState) : Prop :=
  (s.urls_to_process.map Prod.fst).Nodup
  ∧ (∀ u ∈ s.urls_to_process.map Prod.fst, u ∉ s.fetched_trace)
  ∧ s.fetched_trace.Nodup
  ∧ (s.indexed_documents.map CrawlDoc.url).Nodup
  ∧ (∀ u ∈ s.indexed_documents.map CrawlDoc.url, u ∈ s.processed_urls)

/-- Modelled from the spec: `index_url_loop` as it would run with the intended
link extraction `extract_links_spec` in place of the raising `extract_links`
(everything else unchanged). -/
def index_url_spec_loop (env : CrawlEnv) (max_depth : Nat) (allowed_domains : List String) :
    Nat → CrawlState → CrawlState
  | 0, s => s
  | fuel + 1, s =>
    match s.urls_to_process with
    | [] => s
    | (current_url, depth) :: rest =>
      if current_url ∈ s.processed_urls ∨ max_depth < depth then
        index_url_spec_loop env max_depth allowed_domains fuel { s with urls_to_process := rest }
      else if allowed_domains ≠ [] ∧ is_allowed_domain env current_url allowed_domains = false then
        index_url_spec_loop env max_depth allowed_domains fuel { s with urls_to_process := rest }
      else
        let s1 := { s with urls_to_process := rest,
                           fetched_trace := s.fetched_trace ++ [current_url] }
        match crawl_single_url env current_url with
        | none => index_url_spec_loop env max_depth allowed_domains fuel s1
        | some document =>
          let s2 := { s1 with indexed_documents := s1.indexed_documents ++ [document],
                              processed_urls := s1.processed_urls ++ [current_url] }
          if depth < max_depth then
            let s3 := { s2 with extract_trace := s2.extract_trace ++ [current_url] }
            let links := extract_links_spec env current_url document.raw_html
            index_url_spec_loop env max_depth allowed_domains fuel
              { s3 with urls_to_process := s3.urls_to_process ++
                  ((links.filter (fun link => link ∉ s3.processed_urls)).map
                    (fun link => (link, depth + 1))) }
          else index_url_spec_loop env max_depth allowed_domains fuel s2

/-- Modelled from the spec: `index_url` with the intended link extraction. -/
def index_url_spec (env : CrawlEnv) (url : String) (max_depth : Nat)
    (allowed_domains : List String) (fuel : Nat) : CrawlState :=
  index_url_spec_loop env max_depth allowed_domains fuel
    { urls_to_process := [(url, 0)], processed_urls := [],
      indexed_documents := [], fetched_trace := [], extract_trace := [] }

/-! ## Job orchestrator (`url_indexer.py`, class `URLIndexingService`) -/

/-- The job dict built by `start_url_indexing` (lines 199-207), without the
`task` handle and the `config` snapshot (passed explicitly below). -/
structure IndexingJob where
  id : String
  status : String
  urls : List String
  results : List CrawlDoc
  errors : List String
deriving Repr, DecidableEq

/-- Embedding of `URLIndexingService.__init__`: the `indexing_jobs` table. -/
structure JobsState where
  indexing_jobs : List (String × IndexingJob)
deriving Repr, DecidableEq

/-- Embedding of `URLIndexingService.start_url_indexing` (lines 191-209): no validation of
`urls` is performed; the job is registered with status `"running"` and the
job id is returned. -/
def start_url_indexing (st : JobsState) (job_id : String) (urls : List String) :
    JobsState × String :=
  ({ indexing_jobs := dictSet st.indexing_jobs job_id
      { id := job_id, status := "running", urls := urls, results := [], errors := [] } },
   job_id)

/-- The per-seed body of `_index_urls_background` (lines 217-230): the results
of `indexer.index_url` are appended to `job["results"]`.  The `except` branch
appending to `job["errors"]` fires only when `index_url` raises, and inside the
`async with` block the session is set, so `index_url` (whose own loop body
catches every exception) returns normally and the branch is unreachable. -/
def process_seed_url (env : CrawlEnv) (cfg_depth : Nat) (cfg_allowed : List String)
    (fuel : Nat) (job : IndexingJob) (url : String) : IndexingJob :=
  { job with results := job.results ++ (index_url env url cfg_depth cfg_allowed fuel).indexed_documents }

/-- Embedding of `URLIndexingService._index_urls_background` (lines 211-237): `setup_ok`
models whether `async with URLIndexer()` establishes the fetch session; on
failure the job is marked `"failed"` with a `Job failed` record (lines
234-237), otherwise the seeds are processed and the job is marked
`"completed"` (line 232). -/
def index_urls_background (env : CrawlEnv) (setup_ok : Bool) (job : IndexingJob)
    (cfg_depth : Nat) (cfg_allowed : List String) (fuel : Nat) : IndexingJob :=
  if setup_ok then
    let j := job.urls.foldl (process_seed_url env cfg_depth cfg_allowed fuel) job
    { j with status := "completed" }
  else
    { job with status := "failed",
               errors := job.errors ++ ["Job failed: cannot establish fetch capability"] }

/-- The successive values assigned to `job["status"]` over a job's lifetime:
`"running"` at creation (line 201), then exactly one of `"completed"` (line
232) or `"failed"` (line 235).  The per-seed loop body (lines 217-230) assigns
no status, and no status is ever assigned after line 232 / 235. -/
def job_status_history (setup_ok : Bool) : List String :=
  ["running", if setup_ok then "completed" else "failed"]

/-! ## Concrete environments and stores used as evaluation inputs -/

/-- The end-to-end scenario of the spec: page A links to B (a relative link
`/b`) and C, page B links to D. -/
def scenarioEnv : CrawlEnv :=
  { fetch := fun url =>
      if url = "http://a.test" then some "<html A>"
      else if url = "http://a.test/b" then some "<html B>"
      else if url = "http://c.test/" then some "<html C>"
      else if url = "http://d.test/" then some "<html D>"
      else none,
    anchors := fun html =>
      if html = "<html A>" then ["/b", "http://c.test/"]
      else if html = "<html B>" then ["http://d.test/"]
      else [],
    urljoin := fun base href => if href = "/b" then base ++ "/b" else href,
    scheme := fun _ => "http",
    netloc := fun _ => "" }

/-- A web where fetching `http://x.test` fails (network error or non-200) and
`http://y.test` succeeds; no page has links. -/
def fetchFailEnv : CrawlEnv :=
  { fetch := fun url => if url = "http://y.test" then some "<html Y>" else none,
    anchors := fun _ => [],
    urljoin := fun _ href => href,
    scheme := fun _ => "http",
    netloc := fun url => url }

/-- A one-page web whose page lives on `sub.a.test`, a subdomain of `a.test`. -/
def domainEnv : CrawlEnv :=
  { fetch := fun url => if url = "http://sub.a.test/" then some "<html S>" else none,
    anchors := fun _ => [],
    urljoin := fun _ href => href,
    scheme := fun _ => "http",
    netloc := fun url => if url = "http://sub.a.test/" then "sub.a.test" else "other.example" }

/-- A concrete stand-in for Python's per-process string hash. -/
def hash0 : String → Nat := fun t => t.length

/-- A concrete stand-in for the square-root capability. -/
def sqrt0 : ℚ → ℚ := fun q => q

/-- A concrete store with two documents, used to evaluate the search claims. -/
def vsEx : VectorStore :=
  { documents :=
      [("d1", { id := "d1", content := "alpha", metadata := [], embedding := some [1, 0] }),
       ("d2", { id := "d2", content := "beta", metadata := [], embedding := some [0, 1] })],
    embeddings := [("d1", [1, 0]), ("d2", [0, 1])] }

/-! ## Lemmas about the dict model -/

theorem dictGet_dictSet_self {α : Type} (l : List (String × α)) (k : String) (v : α) :
    dictGet (dictSet l k v) k = some v := by
  induction l with
  | nil => simp [dictSet, dictGet]
  | cons p rest ih =>
    by_cases hp : p.1 = k
    · simp [dictSet, dictGet, hp]
    · simp [dictSet, dictGet, hp, ih]

theorem dictGet_dictSet_ne {α : Type} (l : List (String × α)) {k q : String} (v : α)
    (h : q ≠ k) : dictGet (dictSet l k v) q = dictGet l q := by
  induction l with
  | nil => simp [dictSet, dictGet, Ne.symm h]
  | cons p rest ih =>
    by_cases hp : p.1 = k
    · subst hp
      simp [dictSet, dictGet, Ne.symm h]
    · simp [dictSet, dictGet, hp, ih]

theorem mem_of_mem_dictSet {α : Type} {l : List (String × α)} {k : String} {v : α}
    {p : String × α} (h : p ∈ dictSet l k v) : p = (k, v) ∨ p ∈ l := by
  induction l with
  | nil => simpa [dictSet] using h
  | cons q rest ih =>
    by_cases hq : q.1 = k
    · simp only [dictSet, if_pos hq, List.mem_cons] at h
      rcases h with h | h
      · exact Or.inl h
      · exact Or.inr (List.mem_cons_of_mem _ h)
    · simp only [dictSet, if_neg hq, List.mem_cons] at h
      rcases h with h | h
      · exact Or.inr (by simp [h])
      · rcases ih h with h1 | h1
        · exact Or.inl h1
        · exact Or.inr (List.mem_cons_of_mem _ h1)

theorem dictKeys_nil {α : Type} : dictKeys ([] : List (String × α)) = [] := rfl

theorem dictKeys_cons {α : Type} (p : String × α) (l : List (String × α)) :
    dictKeys (p :: l) = p.1 :: dictKeys l := rfl

theorem mem_of_mem_dictDel {α : Type} {l : List (String × α)} {k : String}
    {p : String × α} (h : p ∈ dictDel l k) : p ∈ l := by
  induction l with
  | nil => simp [dictDel] at h
  | cons q rest ih =>
    by_cases hq : q.1 = k
    · simp only [dictDel, if_pos hq] at h
      exact List.mem_cons_of_mem _ h
    · simp only [dictDel, if_neg hq, List.mem_cons] at h
      rcases h with h | h
      · exact by simp [h]
      · exact List.mem_cons_of_mem _ (ih h)

theorem dictGet_eq_some_mem {α : Type} {l : List (String × α)} {k : String} {v : α}
    (h : dictGet l k = some v) : (k, v) ∈ l := by
  induction l with
  | nil => simp [dictGet] at h
  | cons p rest ih =>
    by_cases hp : p.1 = k
    · simp only [dictGet, if_pos hp, Option.some.injEq] at h
      cases p with
      | mk a b =>
        simp only at hp h
        simp [hp, h]
    · simp only [dictGet, if_neg hp] at h
      exact List.mem_cons_of_mem _ (ih h)

theorem dictGet_eq_none_of_not_mem {α : Type} {l : List (String × α)} {k : String}
    (h : k ∉ dictKeys l) : dictGet l k = none := by
  induction l with
  | nil => rfl
  | cons p rest ih =>
    simp only [dictKeys_cons, List.mem_cons] at h
    push_neg at h
    have hp : ¬ p.1 = k := fun hh => h.1 hh.symm
    simp only [dictGet, if_neg hp]
    exact ih h.2

theorem dictSet_eq_append_of_get_none {α : Type} {l : List (String × α)} {k : String}
    (v : α) (h : dictGet l k = none) : dictSet l k v = l ++ [(k, v)] := by
  induction l with
  | nil => rfl
  | cons p rest ih =>
    by_cases hp : p.1 = k
    · simp [dictGet, hp] at h
    · simp only [dictGet, if_neg hp] at h
      simp [dictSet, hp, ih h]

theorem dictKeys_dictSet {α : Type} (l : List (String × α)) (k : String) (v : α) :
    dictKeys (dictSet l k v)
      = if k ∈ dictKeys l then dictKeys l else dictKeys l ++ [k] := by
  induction l with
  | nil => simp [dictSet, dictKeys]
  | cons p rest ih =>
    by_cases hp : p.1 = k
    · simp [dictSet, if_pos hp, dictKeys_cons, hp]
    · have hne : k ≠ p.1 := fun hh => hp hh.symm
      simp only [dictSet, if_neg hp, dictKeys_cons, ih, List.mem_cons]
      by_cases hk : k ∈ dictKeys rest
      · simp [hk, hne]
      · simp [hk, hne]

theorem dictKeys_dictSet_nodup {α : Type} {l : List (String × α)} {k : String} {v : α}
    (h : (dictKeys l).Nodup) : (dictKeys (dictSet l k v)).Nodup := by
  rw [dictKeys_dictSet]
  by_cases hk : k ∈ dictKeys l
  · simpa [hk] using h
  · simp [hk, List.nodup_append, h]

theorem dictKeys_dictDel_sublist {α : Type} (l : List (String × α)) (k : String) :
    (dictKeys (dictDel l k)).Sublist (dictKeys l) := by
  induction l with
  | nil => simp [dictDel, dictKeys]
  | cons p rest ih =>
    by_cases hp : p.1 = k
    · simp only [dictDel, if_pos hp, dictKeys_cons]
      exact (List.Sublist.refl _).cons _
    · simp only [dictDel, if_neg hp, dictKeys_cons]
      exact ih.cons₂ _

theorem dictKeys_dictSet_congr {α β : Type} {l1 : List (String × α)} {l2 : List (String × β)}
    (h : dictKeys l1 = dictKeys l2) (k : String) (v1 : α) (v2 : β) :
    dictKeys (dictSet l1 k v1) = dictKeys (dictSet l2 k v2) := by
  rw [dictKeys_dictSet, dictKeys_dictSet, h]

theorem dictKeys_dictDel_congr {α β : Type} {l1 : List (String × α)} {l2 : List (String × β)}
    (h : dictKeys l1 = dictKeys l2) (k : String) :
    dictKeys (dictDel l1 k) = dictKeys (dictDel l2 k) := by
  induction l1 generalizing l2 with
  | nil =>
    cases l2 with
    | nil => rfl
    | cons q t2 => simp [dictKeys] at h
  | cons p t1 ih =>
    cases l2 with
    | nil => simp [dictKeys] at h
    | cons q t2 =>
      simp only [dictKeys_cons, List.cons.injEq] at h
      obtain ⟨hk, ht⟩ := h
      by_cases hp : p.1 = k
      · have hq : q.1 = k := hk ▸ hp
        simp only [dictDel, if_pos hp, if_pos hq]
        exact ht
      · have hq : ¬ q.1 = k := fun hh => hp (hk.trans hh)
        simp only [dictDel, if_neg hp, if_neg hq, dictKeys_cons]
        rw [hk, ih ht]

theorem dictGet_dictDel_self {α : Type} {l : List (String × α)} {k : String}
    (h : (dictKeys l).Nodup) : dictGet (dictDel l k) k = none := by
  induction l with
  | nil => rfl
  | cons p rest ih =>
    simp only [dictKeys, List.map_cons, List.nodup_cons] at h
    by_cases hp : p.1 = k
    · simp only [dictDel, if_pos hp]
      exact dictGet_eq_none_of_not_mem (hp ▸ h.1)
    · simp only [dictDel, if_neg hp, dictGet, if_neg hp]
      exact ih h.2

theorem dictGet_dictDel_ne {α : Type} (l : List (String × α)) {k q : String}
    (h : q ≠ k) : dictGet (dictDel l k) q = dictGet l q := by
  induction l with
  | nil => rfl
  | cons p rest ih =>
    by_cases hp : p.1 = k
    · subst hp
      simp [dictDel, dictGet, Ne.symm h]
    · simp [dictDel, dictGet, hp, ih]

/-! ## Vector store: embedding dimension and map synchronisation -/

theorem generate_simple_embedding_length (hash : String → Nat) (sqrt : ℚ → ℚ) (text : String) :
    (generate_simple_embedding hash sqrt text).length = 384 := by
  have hfold : ∀ (l : List (Nat × String)) (e : List ℚ),
      (l.foldl (fun emb iw =>
        emb.set (hash iw.2 % 384) (emb.getD (hash iw.2 % 384) 0 + 1 / ((iw.1 : ℚ) + 1))) e).length
        = e.length := by
    intro l
    induction l with
    | nil => intro e; rfl
    | cons x xs ih =>
      intro e
      rw [List.foldl_cons, ih, List.length_set]
  simp only [generate_simple_embedding]
  split
  · rw [List.length_map, hfold, List.length_replicate]
  · rw [hfold, List.length_replicate]

theorem embdim_empty : EmbDim VectorStore.empty := by
  intro p hp
  simp [VectorStore.empty] at hp

theorem applyOp_embdim (hash : String → Nat) (sqrt : ℚ → ℚ) {s : VectorStore}
    (h : EmbDim s) (op : VSOp) : EmbDim (applyOp hash sqrt s op) := by
  cases op with
  | add doc_id content metadata =>
    intro p hp
    simp only [applyOp, add_document] at hp
    rcases mem_of_mem_dictSet hp with h1 | h1
    · refine ⟨generate_simple_embedding hash sqrt content, ?_,
        generate_simple_embedding_length hash sqrt content⟩
      rw [h1]
    · exact h p h1
  | del doc_id =>
    intro p hp
    by_cases hd : (dictGet s.documents doc_id).isSome
    · simp only [applyOp, delete_document, if_pos hd] at hp
      exact h p (mem_of_mem_dictDel hp)
    · simp only [applyOp, delete_document, if_neg hd] at hp
      exact h p hp
  | get doc_id => exact h
  | search query k => exact h

theorem applyOps_embdim (hash : String → Nat) (sqrt : ℚ → ℚ) {s : VectorStore}
    (h : EmbDim s) (ops : List VSOp) : EmbDim (applyOps hash sqrt s ops) := by
  induction ops generalizing s with
  | nil => exact h
  | cons op rest ih =>
    simp only [applyOps, List.foldl_cons]
    exact ih (applyOp_embdim hash sqrt h op)

theorem storeinv_empty : StoreInv VectorStore.empty :=
  ⟨List.nodup_nil, rfl, fun _ => rfl⟩

theorem applyOp_storeinv (hash : String → Nat) (sqrt : ℚ → ℚ) {s : VectorStore}
    (h : StoreInv s) (op : VSOp) : StoreInv (applyOp hash sqrt s op) := by
  obtain ⟨hnd, hkeys, hget⟩ := h
  cases op with
  | add doc_id content metadata =>
    simp only [applyOp, add_document]
    refine ⟨dictKeys_dictSet_nodup hnd, dictKeys_dictSet_congr hkeys doc_id _ _, ?_⟩
    intro q
    by_cases hq : q = doc_id
    · subst hq
      rw [dictGet_dictSet_self, dictGet_dictSet_self]
      rfl
    · rw [dictGet_dictSet_ne _ _ hq, dictGet_dictSet_ne _ _ hq]
      exact hget q
  | del doc_id =>
    by_cases hd : (dictGet s.documents doc_id).isSome
    · simp only [applyOp, delete_document, if_pos hd]
      have hnd2 : (dictKeys s.embeddings).Nodup := hkeys ▸ hnd
      refine ⟨(dictKeys_dictDel_sublist _ _).nodup hnd,
        dictKeys_dictDel_congr hkeys doc_id, ?_⟩
      intro q
      by_cases hq : q = doc_id
      · subst hq
        rw [dictGet_dictDel_self hnd, dictGet_dictDel_self hnd2]
        rfl
      · rw [dictGet_dictDel_ne _ hq, dictGet_dictDel_ne _ hq]
        exact hget q
    · simp only [applyOp, delete_document, if_neg hd]
      exact ⟨hnd, hkeys, hget⟩
  | get doc_id => exact ⟨hnd, hkeys, hget⟩
  | search query k => exact ⟨hnd, hkeys, hget⟩

theorem applyOps_storeinv (hash : String → Nat) (sqrt : ℚ → ℚ) {s : VectorStore}
    (h : StoreInv s) (ops : List VSOp) : StoreInv (applyOps hash sqrt s ops) := by
  induction ops generalizing s with
  | nil => exact h
  | cons op rest ih =>
    simp only [applyOps, List.foldl_cons]
    exact ih (applyOp_storeinv hash sqrt h op)

/-- Claim C10: after any sequence of `add_document`, `delete_document`,
`get_document` and `similarity_search` operations, the key list of the
id-to-document map equals the key list of the id-to-embedding map, and for
every stored id the embedding held in the document record equals the entry in
the embedding map. -/
theorem vector_store_maps_in_sync (hash : String → Nat) (sqrt : ℚ → ℚ) (ops : List VSOp) :
    (dictKeys (applyOps hash sqrt VectorStore.empty ops).documents
      = dictKeys (applyOps hash sqrt VectorStore.empty ops).embeddings)
    ∧ ∀ (doc_id : String) (d : Doc),
        dictGet (applyOps hash sqrt VectorStore.empty ops).documents doc_id = some d →
        d.embedding = dictGet (applyOps hash sqrt VectorStore.empty ops).embeddings doc_id := by
  obtain ⟨hnd, hkeys, hget⟩ := applyOps_storeinv hash sqrt storeinv_empty ops
  refine ⟨hkeys, ?_⟩
  intro doc_id d hd
  have hq := hget doc_id
  rw [hd] at hq
  exact hq

/-- Claim C9: the embedding generator returns a vector of the fixed dimension
384 for every text input, and after any sequence of store operations every
stored document's embedding has that same length. -/
theorem embedding_dimension_384 (hash : String → Nat) (sqrt : ℚ → ℚ) :
    (∀ text, (generate_simple_embedding hash sqrt text).length = 384)
    ∧ ∀ (ops : List VSOp) (doc_id : String) (d : Doc),
        dictGet (applyOps hash sqrt VectorStore.empty ops).documents doc_id = some d →
        ∃ e, d.embedding = some e ∧ e.length = 384 := by
  refine ⟨fun text => generate_simple_embedding_length hash sqrt text, ?_⟩
  intro ops doc_id d hd
  exact applyOps_embdim hash sqrt embdim_empty ops (doc_id, d) (dictGet_eq_some_mem hd)

/-! ## Stable descending sort: permutation, order, stability -/

theorem insertByScoreDesc_perm (x : String × ℚ) (l : List (String × ℚ)) :
    (insertByScoreDesc x l).Perm (x :: l) := by
  induction l with
  | nil => exact List.Perm.refl _
  | cons y ys ih =>
    by_cases h : y.2 < x.2
    · simp only [insertByScoreDesc, if_pos h]
      exact List.Perm.refl _
    · simp only [insertByScoreDesc, if_neg h]
      exact (ih.cons y).trans (List.Perm.swap x y ys)

theorem sortByScoreDesc_perm_aux (l : List (String × ℚ)) :
    ∀ acc : List (String × ℚ),
      (l.foldl (fun a x => insertByScoreDesc x a) acc).Perm (acc ++ l) := by
  induction l with
  | nil => intro acc; simp
  | cons x xs ih =>
    intro acc
    simp only [List.foldl_cons]
    refine (ih _).trans ?_
    refine (((insertByScoreDesc_perm x acc).append_right xs).trans ?_)
    exact List.perm_middle.symm

theorem sortByScoreDesc_perm (l : List (String × ℚ)) : (sortByScoreDesc l).Perm l := by
  simpa using sortByScoreDesc_perm_aux l []

theorem sortByScoreDesc_length (l : List (String × ℚ)) :
    (sortByScoreDesc l).length = l.length :=
  (sortByScoreDesc_perm l).length_eq

theorem insertByScoreDesc_sorted {l : List (String × ℚ)} (h : ScoreSorted l) (x : String × ℚ) :
    ScoreSorted (insertByScoreDesc x l) := by
  induction l with
  | nil => exact List.pairwise_singleton _ _
  | cons y ys ih =>
    obtain ⟨hy, hys⟩ := List.pairwise_cons.mp h
    by_cases hlt : y.2 < x.2
    · simp only [insertByScoreDesc, if_pos hlt]
      refine List.Pairwise.cons ?_ (List.Pairwise.cons hy hys)
      intro z hz
      rcases List.mem_cons.mp hz with h1 | h1
      · exact h1 ▸ le_of_lt hlt
      · exact le_trans (hy z h1) (le_of_lt hlt)
    · simp only [insertByScoreDesc, if_neg hlt]
      refine List.Pairwise.cons ?_ (ih hys)
      intro z hz
      rcases List.mem_cons.mp ((insertByScoreDesc_perm x ys).mem_iff.mp hz) with h1 | h1
      · exact h1 ▸ le_of_not_lt hlt
      · exact hy z h1

theorem sortByScoreDesc_sorted_aux (l : List (String × ℚ)) :
    ∀ acc : List (String × ℚ), ScoreSorted acc →
      ScoreSorted (l.foldl (fun a x => insertByScoreDesc x a) acc) := by
  induction l with
  | nil => exact fun acc h => h
  | cons x xs ih =>
    intro acc h
    simp only [List.foldl_cons]
    exact ih _ (insertByScoreDesc_sorted h x)

theorem sortByScoreDesc_sorted (l : List (String × ℚ)) : ScoreSorted (sortByScoreDesc l) :=
  sortByScoreDesc_sorted_aux l [] List.Pairwise.nil

theorem insertByScoreDesc_filter (x : String × ℚ) {l : List (String × ℚ)} (q : ℚ)
    (h : ScoreSorted l) :
    (insertByScoreDesc x l).filter (fun p => decide (p.2 = q))
      = l.filter (fun p => decide (p.2 = q)) ++ (if x.2 = q then [x] else []) := by
  induction l with
  | nil => by_cases hxq : x.2 = q <;> simp [insertByScoreDesc, hxq]
  | cons y ys ih =>
    obtain ⟨hy, hys⟩ := List.pairwise_cons.mp h
    by_cases hlt : y.2 < x.2
    · simp only [insertByScoreDesc, if_pos hlt]
      by_cases hxq : x.2 = q
      · have hnil : List.filter (fun p => decide (p.2 = q)) (y :: ys) = [] := by
          rw [List.filter_eq_nil_iff]
          intro a ha
          have haq : a.2 < q := by
            rcases List.mem_cons.mp ha with h1 | h1
            · exact h1 ▸ (hxq ▸ hlt)
            · exact lt_of_le_of_lt (hy a h1) (hxq ▸ hlt)
          simp [ne_of_lt haq]
        simp [List.filter_cons, hxq, hnil]
      · simp [List.filter_cons, hxq]
    · simp only [insertByScoreDesc, if_neg hlt]
      by_cases hyq : y.2 = q
      · simp [List.filter_cons, hyq, ih hys]
      · simp [List.filter_cons, hyq, ih hys]

theorem sortByScoreDesc_filter_aux (q : ℚ) (l : List (String × ℚ)) :
    ∀ acc : List (String × ℚ), ScoreSorted acc →
      (l.foldl (fun a x => insertByScoreDesc x a) acc).filter (fun p => decide (p.2 = q))
        = acc.filter (fun p => decide (p.2 = q)) ++ l.filter (fun p => decide (p.2 = q)) := by
  induction l with
  | nil => intro acc _; simp
  | cons x xs ih =>
    intro acc h
    simp only [List.foldl_cons]
    rw [ih _ (insertByScoreDesc_sorted h x), insertByScoreDesc_filter x q h, List.filter_cons]
    by_cases hxq : x.2 = q
    · simp [hxq, List.append_assoc]
    · simp [hxq]

/-- Python's stable sort keeps equal-score entries in their original
(insertion) order: filtering the sorted list at any fixed score gives exactly
the filtered input, unchanged. -/
theorem sortByScoreDesc_filter (l : List (String × ℚ)) (q : ℚ) :
    (sortByScoreDesc l).filter (fun p => decide (p.2 = q))
      = l.filter (fun p => decide (p.2 = q)) := by
  simpa using sortByScoreDesc_filter_aux q l [] List.Pairwise.nil

theorem enum_map_comp_snd {α β : Type} (g : α → β) (l : List α) :
    l.enum.map (fun rp => g rp.2) = l.map g := by
  rw [show (fun rp : Nat × α => g rp.2) = g ∘ Prod.snd from rfl, ← List.map_map,
    List.enum_map_snd]

theorem similarity_search_map_score (hash : String → Nat) (sqrt : ℚ → ℚ)
    (s : VectorStore) (query : String) (k : Nat) (h : ¬ s.documents = []) :
    (similarity_search hash sqrt s query k).map SearchResult.score
      = ((sortByScoreDesc (query_similarities hash sqrt s query)).take k).map Prod.snd := by
  simp only [similarity_search, if_neg h, List.map_map]
  have hcomp : (SearchResult.score ∘ fun rp : Nat × (String × ℚ) =>
      ({ document := dictGet s.documents rp.2.1, score := rp.2.2, rank := rp.1 + 1 } : SearchResult))
      = fun rp => Prod.snd rp.2 := rfl
  rw [hcomp]
  exact enum_map_comp_snd Prod.snd _

/-- Claim C4: on an index with N stored documents, `similarity_search`
returns exactly `min k N` results, in descending score order with ties kept
in insertion order (stable sort over the insertion-ordered embeddings map);
it is a pure function of the store and query (so repeated calls agree), and
on an empty index it returns the empty sequence rather than an error. -/
theorem similarity_search_top_k_spec (hash : String → Nat) (sqrt : ℚ → ℚ)
    (s : VectorStore) (query : String) (k : Nat)
    (hlen : s.documents.length = s.embeddings.length) :
    (similarity_search hash sqrt s query k).length = min k s.documents.length
    ∧ ((similarity_search hash sqrt s query k).map SearchResult.score).Pairwise
        (fun a b => b ≤ a)
    ∧ (s.documents = [] ∨ (similarity_search hash sqrt s query k).map SearchResult.score
        = ((sortByScoreDesc (query_similarities hash sqrt s query)).take k).map Prod.snd)
    ∧ (∀ q : ℚ,
        (sortByScoreDesc (query_similarities hash sqrt s query)).filter
            (fun p => decide (p.2 = q))
          = (query_similarities hash sqrt s query).filter (fun p => decide (p.2 = q)))
    ∧ (sortByScoreDesc (query_similarities hash sqrt s query)).Perm
        (query_similarities hash sqrt s query)
    ∧ similarity_search hash sqrt s query k = similarity_search hash sqrt s query k
    ∧ (s.documents = [] → similarity_search hash sqrt s query k = []) := by
  by_cases hd : s.documents = []
  · refine ⟨?_, ?_, Or.inl hd, fun q => sortByScoreDesc_filter _ q,
      sortByScoreDesc_perm _, rfl, fun _ => ?_⟩
    · simp [similarity_search, hd]
    · simp [similarity_search, hd]
    · simp [similarity_search, hd]
  · have hmap := similarity_search_map_score hash sqrt s query k hd
    refine ⟨?_, ?_, Or.inr hmap, fun q => sortByScoreDesc_filter _ q,
      sortByScoreDesc_perm _, rfl, fun h => absurd h hd⟩
    · rw [hlen]
      simp only [similarity_search, if_neg hd, List.length_map, List.enum_length,
        List.length_take, sortByScoreDesc_length, query_similarities]
    · rw [hmap, List.pairwise_map]
      exact (sortByScoreDesc_sorted (query_similarities hash sqrt s query)).sublist
        (List.take_sublist k _)

/-- Witness for claim C4: the hypothesis and the count conclusion at a
concrete two-document store. -/
theorem similarity_search_top_k_spec_witness :
    vsEx.documents.length = vsEx.embeddings.length
    ∧ (similarity_search hash0 sqrt0 vsEx "query" 1).length = min 1 vsEx.documents.length :=
  ⟨rfl, (similarity_search_top_k_spec hash0 sqrt0 vsEx "query" 1 rfl).1⟩

/-! ## Crawler lemmas -/

theorem extract_links_ok_nil {env : CrawlEnv} {b hc : String} {links : List String}
    (hok : extract_links env b hc = Except.ok links) : links = [] := by
  cases hanch : env.anchors hc with
  | nil =>
    simp [extract_links, hanch] at hok
    exact hok
  | cons a t =>
    simp [extract_links, hanch] at hok

theorem crawl_single_url_url {env : CrawlEnv} {u : String} {d : CrawlDoc}
    (h : crawl_single_url env u = some d) : d.url = u := by
  cases hf : env.fetch u with
  | none => simp [crawl_single_url, hf] at h
  | some html =>
    simp [crawl_single_url, hf] at h
    rw [← h]

theorem index_url_loop_queue_nil (env : CrawlEnv) (m : Nat) (a : List String)
    (fuel : Nat) (s : CrawlState) (h : s.urls_to_process = []) :
    index_url_loop env m a fuel s = s := by
  cases fuel with
  | zero => rfl
  | succ n => simp [index_url_loop, h]

theorem index_url_loop_crawlinv (env : CrawlEnv) (m : Nat) (a : List String) :
    ∀ (fuel : Nat) (s : CrawlState), CrawlInv s → CrawlInv (index_url_loop env m a fuel s) := by
  intro fuel
  induction fuel with
  | zero => exact fun s h => h
  | succ n ih =>
    intro s hs
    obtain ⟨q, p, docs, ft, et⟩ := s
    cases q with
    | nil => simpa [index_url_loop] using hs
    | cons hd rest =>
      obtain ⟨current, depth⟩ := hd
      obtain ⟨hqnd, hqf, hfnd, hdnd, hdp⟩ := hs
      simp only [List.map_cons, List.nodup_cons] at hqnd
      obtain ⟨hcr, hrnd⟩ := hqnd
      have hcf : current ∉ ft := hqf current (by simp)
      have hrf : ∀ u ∈ rest.map Prod.fst, u ∉ ft :=
        fun u hu => hqf u (by simp [hu])
      simp only [index_url_loop]
      by_cases h1 : current ∈ p ∨ m < depth
      · rw [if_pos h1]
        exact ih _ ⟨hrnd, hrf, hfnd, hdnd, hdp⟩
      · rw [if_neg h1]
        have hcp : current ∉ p := fun hc => h1 (Or.inl hc)
        by_cases h2 : a ≠ [] ∧ is_allowed_domain env current a = false
        · rw [if_pos h2]
          exact ih _ ⟨hrnd, hrf, hfnd, hdnd, hdp⟩
        · rw [if_neg h2]
          have hq2 : ∀ u ∈ rest.map Prod.fst, u ∉ ft ++ [current] := by
            intro u hu
            simp only [List.mem_append, List.mem_singleton]
            push_neg
            exact ⟨hrf u hu, fun he => hcr (he ▸ hu)⟩
          have hf2 : (ft ++ [current]).Nodup := by
            simp [List.nodup_append, hfnd, hcf]
          cases hcrawl : crawl_single_url env current with
          | none =>
            simp only [hcrawl]
            exact ih _ ⟨hrnd, hq2, hf2, hdnd, hdp⟩
          | some document =>
            simp only [hcrawl]
            have hurl : document.url = current := crawl_single_url_url hcrawl
            have hdnd2 : ((docs ++ [document]).map CrawlDoc.url).Nodup := by
              simp only [List.map_append, List.map_cons, List.map_nil]
              simp only [List.nodup_append, List.nodup_cons, List.nodup_nil]
              refine ⟨hdnd, ⟨by simp, trivial⟩, ?_⟩
              intro u hu
              simp only [hurl, List.mem_singleton]
              intro he
              exact hcp (he ▸ hdp u hu)
            have hdp2 : ∀ u ∈ (docs ++ [document]).map CrawlDoc.url, u ∈ p ++ [current] := by
              intro u hu
              simp only [List.map_append, List.mem_append, List.map_cons, List.map_nil,
                List.mem_singleton] at hu ⊢
              rcases hu with hu | hu
              · exact Or.inl (hdp u hu)
              · simp [hu, hurl]
            by_cases h3 : depth < m
            · rw [if_pos h3]
              cases hel : extract_links env current document.raw_html with
              | error e =>
                simp only [hel]
                exact ih _ ⟨hrnd, hq2, hf2, hdnd2, hdp2⟩
              | ok links =>
                have hlinks : links = [] := extract_links_ok_nil hel
                subst hlinks
                simp only [hel, List.filter_nil, List.map_nil, List.append_nil]
                exact ih _ ⟨hrnd, hq2, hf2, hdnd2, hdp2⟩
            · rw [if_neg h3]
              exact ih _ ⟨hrnd, hq2, hf2, hdnd2, hdp2⟩

/-- Claim C5: within a single traversal call every URL is fetched at most
once, and no URL appears more than once across the returned documents, for
every web environment (cyclic links included). -/
theorem index_url_visits_each_url_once (env : CrawlEnv) (url : String)
    (max_depth : Nat) (allowed_domains : List String) (fuel : Nat) :
    (index_url env url max_depth allowed_domains fuel).fetched_trace.Nodup
    ∧ ((index_url env url max_depth allowed_domains fuel).indexed_documents.map
        CrawlDoc.url).Nodup := by
  have h := index_url_loop_crawlinv env max_depth allowed_domains fuel
    { urls_to_process := [(url, 0)], processed_urls := [],
      indexed_documents := [], fetched_trace := [], extract_trace := [] }
    ⟨by simp, by simp, List.nodup_nil, by simp, by simp⟩
  exact ⟨h.2.2.1, h.2.2.2.1⟩

/-- Claim C7: with `max_depth = 0` the traversal returns at most one document
(the seed itself, when fetchable and HTML) and performs no link extraction. -/
theorem index_url_depth_zero_spec (env : CrawlEnv) (url : String)
    (allowed_domains : List String) (fuel : Nat) :
    (index_url env url 0 allowed_domains fuel).indexed_documents.length ≤ 1
    ∧ (∀ d ∈ (index_url env url 0 allowed_domains fuel).indexed_documents, d.url = url)
    ∧ (index_url env url 0 allowed_domains fuel).extract_trace = [] := by
  cases fuel with
  | zero =>
    exact ⟨by simp [index_url, index_url_loop], by simp [index_url, index_url_loop], rfl⟩
  | succ n =>
    simp only [index_url, index_url_loop]
    rw [if_neg (by simp)]
    by_cases h2 : allowed_domains ≠ [] ∧ is_allowed_domain env url allowed_domains = false
    · rw [if_pos h2, index_url_loop_queue_nil env 0 allowed_domains n _ rfl]
      exact ⟨by simp, by simp, rfl⟩
    · rw [if_neg h2]
      cases hcrawl : crawl_single_url env url with
      | none =>
        simp only [hcrawl]
        rw [index_url_loop_queue_nil env 0 allowed_domains n _ rfl]
        exact ⟨by simp, by simp, rfl⟩
      | some document =>
        simp only [hcrawl]
        rw [if_neg (lt_irrefl 0), index_url_loop_queue_nil env 0 allowed_domains n _ rfl]
        refine ⟨by simp, ?_, rfl⟩
        intro d hd
        simp only [List.nil_append, List.mem_singleton] at hd
        rw [hd]
        exact crawl_single_url_url hcrawl

theorem index_url_loop_allowed (env : CrawlEnv) (m : Nat) (a : List String) (hne : a ≠ []) :
    ∀ (fuel : Nat) (s : CrawlState),
      (∀ d ∈ s.indexed_documents, is_allowed_domain env d.url a = true) →
      ∀ d ∈ (index_url_loop env m a fuel s).indexed_documents,
        is_allowed_domain env d.url a = true := by
  intro fuel
  induction fuel with
  | zero => exact fun s h => h
  | succ n ih =>
    intro s hs
    obtain ⟨q, p, docs, ft, et⟩ := s
    cases q with
    | nil => simpa [index_url_loop] using hs
    | cons hd rest =>
      obtain ⟨current, depth⟩ := hd
      simp only [index_url_loop]
      by_cases h1 : current ∈ p ∨ m < depth
      · rw [if_pos h1]
        exact ih _ hs
      · rw [if_neg h1]
        by_cases h2 : a ≠ [] ∧ is_allowed_domain env current a = false
        · rw [if_pos h2]
          exact ih _ hs
        · rw [if_neg h2]
          have hall : is_allowed_domain env current a = true := by
            by_cases hb : is_allowed_domain env current a = true
            · exact hb
            · exact absurd ⟨hne, by simpa using hb⟩ h2
          cases hcrawl : crawl_single_url env current with
          | none =>
            simp only [hcrawl]
            exact ih _ hs
          | some document =>
            simp only [hcrawl]
            have hdocs : ∀ d ∈ docs ++ [document], is_allowed_domain env d.url a = true := by
              intro d hd
              rcases List.mem_append.mp hd with hd | hd
              · exact hs d hd
              · simp only [List.mem_singleton] at hd
                rw [hd, crawl_single_url_url hcrawl]
                exact hall
            by_cases h3 : depth < m
            · rw [if_pos h3]
              cases hel : extract_links env current document.raw_html with
              | error e =>
                simp only [hel]
                exact ih _ hdocs
              | ok links =>
                simp only [hel]
                exact ih _ hdocs
            · rw [if_neg h3]
              exact ih _ hdocs

/-- Claim C8: with a non-empty allowed-domains list every returned document's
URL has a domain equal to, or a subdomain of, some entry of the list
(case-insensitive compare, as implemented by `_is_allowed_domain`). -/
theorem index_url_allowed_domains_spec (env : CrawlEnv) (url : String) (max_depth : Nat)
    (allowed_domains : List String) (fuel : Nat) (hne : allowed_domains ≠ []) :
    ∀ d ∈ (index_url env url max_depth allowed_domains fuel).indexed_documents,
      is_allowed_domain env d.url allowed_domains = true :=
  index_url_loop_allowed env max_depth allowed_domains hne fuel _ (by simp)

/-- Witness for claim C8: a concrete one-page crawl on `sub.a.test` with
allow-list `["a.test"]`. -/
theorem index_url_allowed_domains_spec_witness :
    (["a.test"] : List String) ≠ []
    ∧ is_allowed_domain domainEnv "http://sub.a.test/" ["a.test"] = true :=
  ⟨by decide, index_url_allowed_domains_spec domainEnv "http://sub.a.test/" 1 ["a.test"] 4
      (by decide) { url := "http://sub.a.test/", raw_html := "<html S>" } (by decide)⟩

/-! ## Job orchestrator theorems -/

theorem foldl_process_seed (env : CrawlEnv) (cfg_depth : Nat) (cfg_allowed : List String)
    (fuel : Nat) :
    ∀ (urls : List String) (job : IndexingJob),
      urls.foldl (process_seed_url env cfg_depth cfg_allowed fuel) job
        = { job with results := job.results
            ++ urls.flatMap (fun u => (index_url env u cfg_depth cfg_allowed fuel).indexed_documents) } := by
  intro urls
  induction urls with
  | nil =>
    intro job
    cases job
    simp
  | cons u us ih =>
    intro job
    simp only [List.foldl_cons, process_seed_url, ih]
    cases job
    simp [List.append_assoc]

/-- Counterexample to claim C3 as stated: fetching `http://x.test` fails (the
fetch capability returns no page), the URL is attempted, the traversal
continues on to `http://y.test`, and yet nothing is appended to the job's
errors list. -/
theorem fetch_failure_not_recorded_cex :
    fetchFailEnv.fetch "http://x.test" = none
    ∧ (index_urls_background fetchFailEnv true
        { id := "j", status := "running", urls := ["http://x.test", "http://y.test"],
          results := [], errors := [] } 1 [] 4).errors = []
    ∧ (index_urls_background fetchFailEnv true
        { id := "j", status := "running", urls := ["http://x.test", "http://y.test"],
          results := [], errors := [] } 1 [] 4).results.map CrawlDoc.url = ["http://y.test"]
    ∧ (index_url fetchFailEnv "http://x.test" 1 [] 4).fetched_trace = ["http://x.test"] := by
  decide

/-- Claim C3 (amended): per-URL fetch failures are only logged inside the
crawler: the job's errors list is unchanged, the job still completes, and the
traversal continues across all seeds; error records are appended only when an
entire `index_url` call raises or the setup of the fetch session fails. -/
theorem fetch_failures_only_logged (env : CrawlEnv) (job : IndexingJob)
    (cfg_depth : Nat) (cfg_allowed : List String) (fuel : Nat) :
    (index_urls_background env true job cfg_depth cfg_allowed fuel).errors = job.errors
    ∧ (index_urls_background env true job cfg_depth cfg_allowed fuel).status = "completed"
    ∧ (index_urls_background env true job cfg_depth cfg_allowed fuel).results
        = job.results ++ job.urls.flatMap
            (fun u => (index_url env u cfg_depth cfg_allowed fuel).indexed_documents) := by
  have hb := foldl_process_seed env cfg_depth cfg_allowed fuel job.urls job
  refine ⟨?_, ?_, ?_⟩ <;> simp [index_urls_background, hb]

/-- Counterexample to claim C2 as stated: with an empty seed list no error is
raised, and a job IS created (the job table gains an entry, in status
running). -/
theorem start_url_indexing_empty_urls_creates_job :
    (start_url_indexing { indexing_jobs := [] } "url-job-0" []).1.indexing_jobs.length = 1
    ∧ (start_url_indexing { indexing_jobs := [] } "url-job-0" []).2 = "url-job-0"
    ∧ (dictGet (start_url_indexing { indexing_jobs := [] } "url-job-0" []).1.indexing_jobs
        "url-job-0").map IndexingJob.status = some "running" := by
  decide

/-- Claim C2 (amended): `start_url_indexing` performs no validation: with an
empty seed list it raises no error, registers a new job in status running,
returns the job id, and the job's background run completes with no results
and no errors. -/
theorem start_url_indexing_empty_no_validation (st : JobsState) (job_id : String)
    (env : CrawlEnv) (cfg_depth : Nat) (cfg_allowed : List String) (fuel : Nat)
    (hfresh : dictGet st.indexing_jobs job_id = none) :
    (start_url_indexing st job_id []).1.indexing_jobs
      = st.indexing_jobs
        ++ [(job_id, { id := job_id, status := "running", urls := [],
                       results := [], errors := [] })]
    ∧ (start_url_indexing st job_id []).2 = job_id
    ∧ index_urls_background env true
        { id := job_id, status := "running", urls := [], results := [], errors := [] }
        cfg_depth cfg_allowed fuel
      = { id := job_id, status := "completed", urls := [], results := [], errors := [] } := by
  refine ⟨?_, rfl, rfl⟩
  simp only [start_url_indexing]
  exact dictSet_eq_append_of_get_none _ hfresh

/-- Witness for the amended claim C2 at the empty job table. -/
theorem start_url_indexing_empty_no_validation_witness :
    dictGet (JobsState.mk []).indexing_jobs "url-job-0" = none
    ∧ (start_url_indexing { indexing_jobs := [] } "url-job-0" []).2 = "url-job-0" :=
  ⟨rfl, (start_url_indexing_empty_no_validation { indexing_jobs := [] } "url-job-0"
      fetchFailEnv 1 [] 1 rfl).2.1⟩

/-- Counterexample to claim C6 as stated: a newly created job is in status
running, not Pending; no Pending status occurs in any job's status history. -/
theorem new_job_not_pending_cex :
    (dictGet (start_url_indexing { indexing_jobs := [] } "url-job-0"
        ["http://a.test"]).1.indexing_jobs "url-job-0").map IndexingJob.status
      = some "running"
    ∧ ("running" : String) ≠ "pending"
    ∧ "pending" ∉ job_status_history true
    ∧ "pending" ∉ job_status_history false := by
  decide

/-- Claim C6 (amended): a job is created directly in status running (there is
no Pending state); the status history is running followed by exactly one
terminal status, completed when the setup of the fetch session succeeds and
failed when it does not; a terminal status is never followed by another
status; and per-seed crawling (including per-URL failures) never changes the
status. -/
theorem job_state_machine_spec (env : CrawlEnv) (setup_ok : Bool) (st : JobsState)
    (job_id : String) (urls : List String) (job : IndexingJob) (url : String)
    (cfg_depth : Nat) (cfg_allowed : List String) (fuel : Nat) :
    dictGet (start_url_indexing st job_id urls).1.indexing_jobs job_id
      = some { id := job_id, status := "running", urls := urls, results := [], errors := [] }
    ∧ "pending" ∉ job_status_history setup_ok
    ∧ (job_status_history setup_ok).head? = some "running"
    ∧ (job_status_history setup_ok).getLast?
        = some (if setup_ok then "completed" else "failed")
    ∧ (∀ v ∈ (job_status_history setup_ok).dropLast, ¬(v = "completed" ∨ v = "failed"))
    ∧ (process_seed_url env cfg_depth cfg_allowed fuel job url).status = job.status
    ∧ (index_urls_background env setup_ok job cfg_depth cfg_allowed fuel).status
        = (if setup_ok then "completed" else "failed") := by
  refine ⟨?_, ?_, ?_, ?_, ?_, rfl, ?_⟩
  · simp only [start_url_indexing]
    exact dictGet_dictSet_self _ _ _
  · cases setup_ok <;> decide
  · cases setup_ok <;> rfl
  · cases setup_ok <;> rfl
  · cases setup_ok <;> decide
  · cases setup_ok <;> rfl

/-- Claim C1 (evaluation of the code at the failing input): in the spec's
A/B/C/D scenario with `max_depth = 1` the traversal returns only the seed's
document, because `_extract_links` raises `NameError` on the undefined name
`_url` at the first anchor of page A, the `except` swallows it, and no link
is ever enqueued. -/
theorem index_url_scenario_depth1_only_seed :
    ((index_url scenarioEnv "http://a.test" 1 [] 8).indexed_documents.map CrawlDoc.url
      = ["http://a.test"])
    ∧ extract_links scenarioEnv "http://a.test" "<html A>"
      = Except.error { name := "_url" } :=
  ⟨by decide, rfl⟩

/-- With the intended link extraction (modelled from the spec) the same
scenario returns exactly the documents for A, B and C, and not D. -/
theorem index_url_spec_scenario :
    ((index_url_spec scenarioEnv "http://a.test" 1 [] 8).indexed_documents.map CrawlDoc.url
      = ["http://a.test", "http://a.test/b", "http://c.test/"])
    ∧ "http://d.test/" ∉ (index_url_spec scenarioEnv "http://a.test" 1 [] 8).indexed_documents.map
        CrawlDoc.url := by
  decide

end ConHub
